import Mathlib

/-!
Verification development for the frequency-domain watermarking program
(file msdt-4/Lab04.py).  The program embeds a pseudo-random pattern (CVZ)
into the central 256 by 256 block of the magnitude spectrum of a 512 by 512
grayscale image, detects it by normalized correlation, grid-searches the
embedding strength, and evaluates robustness under attacks.

Numeric conventions of the shallow embedding: machine floating point is
modelled by the real numbers; the attack sweep proportions are modelled by
the rationals (so that floors are computable); images and flattened
watermark vectors are lists of reals; 512 by 512 and 256 by 256 arrays are
functions out of Fin 512 and Fin 256.  Python integer truncation int(x)
agrees with the floor for the nonnegative proportions used by the sweep and
is modelled by the floor.  Division by zero follows the Lean convention
x / 0 = 0; where the source would produce an IEEE infinity or NaN the
development only ever uses the fact that the result is not the sentinel
value, which holds under either convention.
-/

namespace Lab04

noncomputable section

/-- Global embedding strength constant, source line 15: ALPHA = 1. -/
def ALPHA : ℕ := 1

/-- Source function process_threshold: 1 if x > 0.1 else 0. -/
def process_threshold (x : ℝ) : ℕ := if x > 1 / 10 then 1 else 0

/-- Sum of squares of a flattened vector, the expression sum(v ** 2)
appearing in the correlation denominator of the source. -/
def vsum_sq (v : List ℝ) : ℝ := (v.map (fun x => x ^ 2)).sum

/-- Elementwise dot product sum(a * b) of two flattened vectors. -/
def vdot (a b : List ℝ) : ℝ := (List.zipWith (· * ·) a b).sum

/-- Source function calculate_proximity: normalized correlation
dot(a, b) / (sqrt(sum(a ** 2)) * sqrt(sum(b ** 2))).  The source computes
the norms as powers with exponent 1/2, which on the nonnegative sums of
squares equals the square root.  There is no zero-norm check in the
source. -/
def calculate_proximity (first_cvz second_cvz : List ℝ) : ℝ :=
  vdot first_cvz second_cvz /
    (Real.sqrt (vsum_sq first_cvz) * Real.sqrt (vsum_sq second_cvz))

/-- Mean squared error np.mean((original - compressed) ** 2) over images
flattened to lists, with the element count taken from the first image. -/
def mse (original compressed : List ℝ) : ℝ :=
  (List.zipWith (fun a b => (a - b) ^ 2) original compressed).sum / original.length

/-- Source function calculate_psnr: returns the sentinel 100 when the mean
squared error is zero, otherwise 20 * log10(255 / sqrt(mse)). -/
def calculate_psnr (original compressed : List ℝ) : ℝ :=
  if mse original compressed = 0 then 100
  else 20 * Real.logb 10 (255 / Real.sqrt (mse original compressed))

/-- Source function calculate_psnr_alternative:
10 * log10(255 ** 2 / mse), with no zero-mse branch. -/
def calculate_psnr_alternative (c cw : List ℝ) : ℝ :=
  10 * Real.logb 10 ((255 : ℝ) ^ 2 / mse c cw)

/-- The PSNR call made inside select_best_alpha, source line 95:
new_psnr = calculate_psnr_alternative(image_array, reverse_array).  It is
the alternative formula, not calculate_psnr, that the optimizer uses. -/
def select_iteration_psnr (image_array reverse_array : List ℝ) : ℝ :=
  calculate_psnr_alternative image_array reverse_array

/-- Source function generate_false_detection_vectors: appends, for each of
count iterations, a fresh draw np.random.normal(0, 1, size=[65536]).  The
random source is modelled by an explicit stream of draws indexed by the
iteration number and the requested size. -/
def generate_false_detection_vectors (normal : ℕ → ℕ → List ℝ) (count : ℕ) :
    List (List ℝ) :=
  (List.range count).map (fun i => normal i 65536)

/-- Source function detect_false_proximity: one calculate_proximity score
of the given cvz vector against each decoy, in order. -/
def detect_false_proximity (false_detection_cvz : List (List ℝ)) (cvz : List ℝ) :
    List ℝ :=
  false_detection_cvz.map (fun false_cvz => calculate_proximity cvz false_cvz)

/-- The top-level call of the source, lines 233 to 236:
detect_false_proximity(generate_false_detection_vectors(100), CVZ.flatten()).
The second argument at the call site is the flattened reference watermark
CVZ, and the call is made before any embedding happens. -/
def false_detection_proximity_array (normal : ℕ → ℕ → List ℝ) (cvz_flat : List ℝ) :
    List ℝ :=
  detect_false_proximity (generate_false_detection_vectors normal 100) cvz_flat

/-- A concrete random stream used by witnesses: every draw of size n is the
all-zero vector of length n. -/
def zeros_normal : ℕ → ℕ → List ℝ := fun _ n => List.replicate n 0

/-- The candidate grid range(1, 1001, 100) of select_best_alpha:
1, 101, 201, up to 901. -/
def alpha_grid : List ℕ := (List.range 10).map (fun k => 1 + 100 * k)

/-- One loop iteration of select_best_alpha as a fold step on the running
best (best_alpha, psnr, best_proximities).  The proximity and the PSNR
computed by the image pipeline of the iteration are supplied by the
oracles prox and psnr_of.  Faithful to the source: the update happens only
when process_threshold fires and the new PSNR strictly exceeds the running
one. -/
def select_step (prox psnr_of : ℕ → ℝ) (st : ℕ × ℝ × ℝ) (alpha : ℕ) : ℕ × ℝ × ℝ :=
  let p := prox alpha
  let included_cvz_estimation := process_threshold p
  if included_cvz_estimation ≠ 0 then
    let new_psnr := psnr_of alpha
    if new_psnr > st.2.1 then (alpha, new_psnr, p) else st
  else st

/-- Source function select_best_alpha modelled as a fold of select_step
over the candidate grid, starting from the uninitialized defaults
psnr = 0, best_alpha = 0, best_proximities = 0. -/
def select_best_alpha (prox psnr_of : ℕ → ℝ) : ℕ × ℝ × ℝ :=
  alpha_grid.foldl (select_step prox psnr_of) (0, 0, 0)

/-- The central 256 by 256 sub-block predicate: both indices lie in the
slice 128:384 used throughout the source. -/
abbrev inBlock (i j : Fin 512) : Prop :=
  128 ≤ i.val ∧ i.val < 384 ∧ 128 ≤ j.val ∧ j.val < 384

/-- The slice assignment
modified_abs_spectrum[128:384, 128:384] = abs_spectrum[128:384, 128:384] + alpha * CVZ
as a pure array transformer: inside the block the watermark scaled by alpha
is added, outside the block the magnitude is unchanged.  The right hand
side of the assignment is evaluated from the pre-assignment values, which
matches the numpy semantics of computing the right hand side array before
storing it. -/
def modified_abs_spectrum (abs_spec : Fin 512 → Fin 512 → ℝ)
    (cvz : Fin 256 → Fin 256 → ℝ) (alpha : ℝ) : Fin 512 → Fin 512 → ℝ :=
  fun i j =>
    if h : inBlock i j then
      abs_spec i j +
        alpha * cvz ⟨i.val - 128, by obtain ⟨h1, h2, h3, h4⟩ := h; omega⟩
          ⟨j.val - 128, by obtain ⟨h1, h2, h3, h4⟩ := h; omega⟩
    else abs_spec i j

/-- Source phase_array = vectorize(phase)(spectre_array): the argument of
each complex Fourier coefficient. -/
def get_phase (spectre_array : Fin 512 → Fin 512 → ℂ) : Fin 512 → Fin 512 → ℝ :=
  fun i j => Complex.arg (spectre_array i j)

/-- Source abs_spectrum = abs(spectre_array): the magnitude of each complex
Fourier coefficient. -/
def abs_spectrum_of (spectre_array : Fin 512 → Fin 512 → ℂ) : Fin 512 → Fin 512 → ℝ :=
  fun i j => Complex.abs (spectre_array i j)

/-- The embedding block of the source (lines 249 to 263, and identically
lines 62 to 73 inside select_best_alpha).  The source calls abs twice,
producing two distinct arrays: the first is aliased by abs_spectrum and
modified_abs_spectrum and receives the in-place slice assignment; the
second is bound to original_abs_spectrum and is never written to.  The
returned triple is (modified_abs_spectrum, original_abs_spectrum,
phase_array used to recompose modified_spectrum). -/
def embed_script (spectre_array : Fin 512 → Fin 512 → ℂ)
    (cvz : Fin 256 → Fin 256 → ℝ) (alpha : ℝ) :
    (Fin 512 → Fin 512 → ℝ) × (Fin 512 → Fin 512 → ℝ) × (Fin 512 → Fin 512 → ℝ) :=
  (modified_abs_spectrum (abs_spectrum_of spectre_array) cvz alpha,
    abs_spectrum_of spectre_array,
    get_phase spectre_array)

/-- The magnitude actually produced by one iteration of the loop in
select_best_alpha for the grid candidate passed as the last argument.
Source line 71 adds ALPHA * CVZ, the global constant, not the loop
variable; the candidate argument is therefore unused, exactly as in the
source. -/
def select_iteration_embedded_mag (abs_spec : Fin 512 → Fin 512 → ℝ)
    (cvz : Fin 256 → Fin 256 → ℝ) (_candidate_alpha : ℕ) : Fin 512 → Fin 512 → ℝ :=
  modified_abs_spectrum abs_spec cvz (ALPHA : ℝ)

/-- The effective slice bound int(p * len(arr)) of the cut attack, with the
clamping to the array length that Python slicing performs.  For the
nonnegative proportions of the sweep the Python int() truncation equals the
floor. -/
def cut_bound (n : ℕ) (p : ℚ) : ℕ := min n (Int.toNat ⌊p * (n : ℚ)⌋)

/-- The in-place update of reverse_array performed by
apply_cut_and_calculate_proximity: the top-left square block of side
cut_bound is overwritten with the corresponding block of the original
image, the rest keeps the stored (watermarked) values.  The result is the
new value of the module-level reverse_array, since the source assigns into
the array rather than rebinding the name. -/
def apply_cut (n : ℕ) (reverse_arr image_arr : Fin n → Fin n → ℚ) (p : ℚ) :
    Fin n → Fin n → ℚ :=
  fun i j =>
    if i.val < cut_bound n p ∧ j.val < cut_bound n p then image_arr i j
    else reverse_arr i j

/-! Helper lemmas about the vector primitives. -/

theorem vsum_sq_cons (x : ℝ) (t : List ℝ) : vsum_sq (x :: t) = x ^ 2 + vsum_sq t := rfl

theorem vdot_cons (x y : ℝ) (t s : List ℝ) :
    vdot (x :: t) (y :: s) = x * y + vdot t s := rfl

theorem vsum_sq_nonneg (v : List ℝ) : 0 ≤ vsum_sq v := by
  refine List.sum_nonneg ?_
  intro x hx
  obtain ⟨y, _, rfl⟩ := List.mem_map.mp hx
  positivity

theorem vsum_sq_pos (v : List ℝ) (h : ∃ x ∈ v, x ≠ 0) : 0 < vsum_sq v := by
  obtain ⟨x, hx, hx0⟩ := h
  have h1 : x ^ 2 ≤ vsum_sq v := by
    refine List.single_le_sum ?_ _ (List.mem_map_of_mem _ hx)
    intro y hy
    obtain ⟨z, _, rfl⟩ := List.mem_map.mp hy
    positivity
  have h2 : 0 < x ^ 2 := by positivity
  linarith

theorem vdot_comm (a : List ℝ) : ∀ b : List ℝ, vdot a b = vdot b a := by
  induction a with
  | nil => intro b; cases b <;> rfl
  | cons x t ih =>
    intro b
    cases b with
    | nil => rfl
    | cons y s => rw [vdot_cons, vdot_cons, mul_comm, ih]

theorem vdot_self (v : List ℝ) : vdot v v = vsum_sq v := by
  induction v with
  | nil => rfl
  | cons x t ih => rw [vdot_cons, vsum_sq_cons, ih, pow_two]

theorem vsum_sq_eq_finset (a : List ℝ) :
    vsum_sq a = ∑ i ∈ Finset.range a.length, a.getD i 0 ^ 2 := by
  induction a with
  | nil => simp [vsum_sq]
  | cons x t ih =>
    rw [vsum_sq_cons, ih, List.length_cons, Finset.sum_range_succ']
    simp only [List.getD_cons_succ, List.getD_cons_zero]
    ring

theorem vdot_eq_finset (a : List ℝ) :
    ∀ b : List ℝ, a.length = b.length →
      vdot a b = ∑ i ∈ Finset.range a.length, a.getD i 0 * b.getD i 0 := by
  induction a with
  | nil => intro b _; simp [vdot]
  | cons x t ih =>
    intro b h
    cases b with
    | nil => simp at h
    | cons y s =>
      have hts : t.length = s.length := by simpa using h
      rw [vdot_cons, ih s hts, List.length_cons, Finset.sum_range_succ']
      simp only [List.getD_cons_succ, List.getD_cons_zero]
      ring

theorem vdot_sq_le (a b : List ℝ) (h : a.length = b.length) :
    vdot a b ^ 2 ≤ vsum_sq a * vsum_sq b := by
  rw [vdot_eq_finset a b h, vsum_sq_eq_finset a, vsum_sq_eq_finset b, ← h]
  exact Finset.sum_mul_sq_le_sq_mul_sq _ _ _

theorem sq_diff_sum_nonneg (a : List ℝ) :
    ∀ b : List ℝ, 0 ≤ (List.zipWith (fun x y => (x - y) ^ 2) a b).sum := by
  induction a with
  | nil => intro b; simp
  | cons x t ih =>
    intro b
    cases b with
    | nil => simp
    | cons y s =>
      simp only [List.zipWith_cons_cons, List.sum_cons]
      exact add_nonneg (sq_nonneg _) (ih s)

theorem mse_nonneg (a b : List ℝ) : 0 ≤ mse a b :=
  div_nonneg (sq_diff_sum_nonneg a b) (Nat.cast_nonneg _)

theorem mse_self (img : List ℝ) : mse img img = 0 := by
  have h : (List.zipWith (fun x y => (x - y) ^ 2) img img).sum = 0 := by
    induction img with
    | nil => rfl
    | cons x t ih => simp [List.zipWith_cons_cons, ih]
  simp [mse, h]

theorem foldl_fixed {α β : Type} (f : β → α → β) :
    ∀ (l : List α) (init : β), (∀ a ∈ l, ∀ st, f st a = st) → l.foldl f init = init := by
  intro l
  induction l with
  | nil => intro init _; rfl
  | cons x t ih =>
    intro init h
    rw [List.foldl_cons, h x (List.mem_cons_self x t) init]
    exact ih init (fun a ha st => h a (List.mem_cons_of_mem x ha) st)

theorem cut_bound_mono (n : ℕ) {p q : ℚ} (h : p ≤ q) : cut_bound n p ≤ cut_bound n q := by
  unfold cut_bound
  refine min_le_min le_rfl (Int.toNat_le_toNat (Int.floor_le_floor ?_))
  exact mul_le_mul_of_nonneg_right h (by positivity)

/-! Claim theorems. -/

/-- C3, counterexample: with a zero-norm first vector the denominator of
calculate_proximity is zero, yet the function performs the division and
returns a plain number (0 under the real-arithmetic convention for
division by zero, NaN at runtime); no DegenerateVector condition is
detected or reported anywhere in the source. -/
theorem proximity_zero_norm_divides :
    Real.sqrt (vsum_sq [(0 : ℝ)]) * Real.sqrt (vsum_sq [(1 : ℝ)]) = 0 ∧
      calculate_proximity [(0 : ℝ)] [(1 : ℝ)] = 0 := by
  constructor
  · simp [vsum_sq]
  · simp [calculate_proximity, vdot, vsum_sq]

/-- C3, amended: calculate_proximity has no zero-norm guard; whenever one
of the vectors has zero sum of squares the denominator is zero and the
division is performed regardless, yielding the junk value 0 in the
real-arithmetic embedding rather than a reported error outcome. -/
theorem proximity_zero_norm_result (a b : List ℝ)
    (h : vsum_sq a = 0 ∨ vsum_sq b = 0) : calculate_proximity a b = 0 := by
  simp only [calculate_proximity]
  rcases h with h | h <;> rw [h] <;> simp

/-- Witness for the amended C3 statement at a concrete degenerate input. -/
theorem proximity_zero_norm_result_witness :
    (vsum_sq [(0 : ℝ)] = 0 ∨ vsum_sq [(1 : ℝ)] = 0) ∧
      calculate_proximity [(0 : ℝ)] [(1 : ℝ)] = 0 :=
  ⟨Or.inl (by simp [vsum_sq]),
    proximity_zero_norm_result _ _ (Or.inl (by simp [vsum_sq]))⟩

/-- C4, counterexample: on identical one-pixel images calculate_psnr does
return the sentinel 100, but the PSNR call path used inside
select_best_alpha is calculate_psnr_alternative (source line 95), which
has no zero-mse branch and does not return the sentinel. -/
theorem optimizer_psnr_path_not_capped :
    calculate_psnr [(1 : ℝ)] [(1 : ℝ)] = 100 ∧
      select_iteration_psnr [(1 : ℝ)] [(1 : ℝ)] ≠ 100 := by
  constructor
  · simp [calculate_psnr, mse_self]
  · simp only [select_iteration_psnr, calculate_psnr_alternative, mse_self, div_zero,
      Real.logb_zero, mul_zero]
    norm_num

/-- C4, amended: for every image, calculate_psnr of the image against
itself returns the capped sentinel 100, but the PSNR call path used inside
the alpha optimizer (calculate_psnr_alternative, which divides by the mean
squared error with no zero check) does not return the sentinel on
identical images. -/
theorem psnr_self_sentinel_only_in_primary (img : List ℝ) :
    calculate_psnr img img = 100 ∧ select_iteration_psnr img img ≠ 100 := by
  constructor
  · simp [calculate_psnr, mse_self]
  · simp only [select_iteration_psnr, calculate_psnr_alternative, mse_self, div_zero,
      Real.logb_zero, mul_zero]
    norm_num

/-- C7: the two PSNR formulas agree in exact real arithmetic whenever the
mean squared error is nonzero: 20 * log10(255 / sqrt(mse)) equals
10 * log10(255 ^ 2 / mse). -/
theorem psnr_formulas_equivalent (a b : List ℝ) (h : mse a b ≠ 0) :
    calculate_psnr a b = calculate_psnr_alternative a b := by
  have hm : 0 < mse a b := lt_of_le_of_ne (mse_nonneg a b) (Ne.symm h)
  simp only [calculate_psnr, calculate_psnr_alternative, if_neg h]
  rw [Real.logb, Real.logb,
    Real.log_div (by norm_num) (ne_of_gt (Real.sqrt_pos.mpr hm)),
    Real.log_sqrt hm.le,
    Real.log_div (by positivity) h,
    Real.log_pow]
  push_cast
  ring

/-- Witness for C7 on concrete one-pixel images with mse 4. -/
theorem psnr_formulas_equivalent_witness :
    mse [(3 : ℝ)] [(1 : ℝ)] ≠ 0 ∧
      calculate_psnr [(3 : ℝ)] [(1 : ℝ)] = calculate_psnr_alternative [(3 : ℝ)] [(1 : ℝ)] :=
  ⟨by norm_num [mse], psnr_formulas_equivalent _ _ (by norm_num [mse])⟩

/-- C8: for equal-length non-zero vectors the correlation primitive is
symmetric, its value lies in the interval from -1 to 1, and the
self-correlation of a non-zero vector equals 1 (exact real arithmetic). -/
theorem calculate_proximity_properties (a b v : List ℝ)
    (hab : a.length = b.length)
    (ha : ∃ x ∈ a, x ≠ 0) (hb : ∃ x ∈ b, x ≠ 0) (hv : ∃ x ∈ v, x ≠ 0) :
    calculate_proximity a b = calculate_proximity b a ∧
      -1 ≤ calculate_proximity a b ∧ calculate_proximity a b ≤ 1 ∧
      calculate_proximity v v = 1 := by
  have hA := vsum_sq_pos a ha
  have hB := vsum_sq_pos b hb
  have hV := vsum_sq_pos v hv
  have hsA : 0 < Real.sqrt (vsum_sq a) := Real.sqrt_pos.mpr hA
  have hsB : 0 < Real.sqrt (vsum_sq b) := Real.sqrt_pos.mpr hB
  have hden : 0 < Real.sqrt (vsum_sq a) * Real.sqrt (vsum_sq b) := mul_pos hsA hsB
  have habs : |vdot a b| ≤ Real.sqrt (vsum_sq a) * Real.sqrt (vsum_sq b) := by
    have h1 : Real.sqrt (vdot a b ^ 2) ≤ Real.sqrt (vsum_sq a * vsum_sq b) :=
      Real.sqrt_le_sqrt (vdot_sq_le a b hab)
    rwa [Real.sqrt_sq_eq_abs, Real.sqrt_mul (vsum_sq_nonneg a)] at h1
  have hbound : |calculate_proximity a b| ≤ 1 := by
    rw [calculate_proximity, abs_div, abs_of_pos hden]
    exact div_le_one_of_le₀ habs hden.le
  refine ⟨?_, (abs_le.mp hbound).1, (abs_le.mp hbound).2, ?_⟩
  · rw [calculate_proximity, calculate_proximity, vdot_comm, mul_comm]
  · rw [calculate_proximity, vdot_self, Real.mul_self_sqrt (vsum_sq_nonneg v)]
    exact div_self (ne_of_gt hV)

/-- Witness for C8 on concrete vectors of length two and one. -/
theorem calculate_proximity_properties_witness :
    ([(1 : ℝ), 0].length = [(0 : ℝ), 1].length) ∧
      (calculate_proximity [(1 : ℝ), 0] [(0 : ℝ), 1] =
          calculate_proximity [(0 : ℝ), 1] [(1 : ℝ), 0] ∧
        -1 ≤ calculate_proximity [(1 : ℝ), 0] [(0 : ℝ), 1] ∧
        calculate_proximity [(1 : ℝ), 0] [(0 : ℝ), 1] ≤ 1 ∧
        calculate_proximity [(2 : ℝ)] [(2 : ℝ)] = 1) :=
  ⟨rfl,
    calculate_proximity_properties _ _ _ rfl
      ⟨1, by simp, one_ne_zero⟩ ⟨1, by simp, one_ne_zero⟩ ⟨2, by simp, by norm_num⟩⟩

/-- C9: if no grid candidate passes the detection threshold,
select_best_alpha returns the uninitialized defaults (0, 0, 0); and the
fold step leaves the running best unchanged unless the new PSNR strictly
exceeds it, so an equal PSNR keeps the earlier grid point. -/
theorem select_best_alpha_defaults (prox psnr_of : ℕ → ℝ) :
    ((∀ alpha ∈ alpha_grid, ¬ prox alpha > 1 / 10) →
        select_best_alpha prox psnr_of = (0, 0, 0)) ∧
      (∀ (st : ℕ × ℝ × ℝ) (alpha : ℕ),
        ¬ psnr_of alpha > st.2.1 → select_step prox psnr_of st alpha = st) := by
  constructor
  · intro h
    refine foldl_fixed _ alpha_grid (0, 0, 0) ?_
    intro a ha st
    simp only [select_step, process_threshold]
    rw [if_neg (h a ha)]
    simp
  · intro st alpha hle
    simp only [select_step]
    by_cases hp : process_threshold (prox alpha) ≠ 0
    · rw [if_pos hp, if_neg hle]
    · rw [if_neg hp]

/-- Witness for C9 with oracles that never detect and never improve. -/
theorem select_best_alpha_defaults_witness :
    select_best_alpha (fun _ => (0 : ℝ)) (fun _ => (0 : ℝ)) = (0, 0, 0) ∧
      select_step (fun _ => (0 : ℝ)) (fun _ => (0 : ℝ)) (0, 0, 0) 1 = (0, 0, 0) :=
  ⟨(select_best_alpha_defaults _ _).1 (fun a _ => by norm_num),
    (select_best_alpha_defaults _ _).2 (0, 0, 0) 1 (by norm_num)⟩

/-- C1: the loop of select_best_alpha iterates over the grid 1, 101, up to
901, but the embedding coefficient is the global constant ALPHA = 1 at
every grid point, not the candidate of the iteration.  At the failing grid
point 101 the magnitude added to a unit watermark entry inside the block
is 1, not 101: the embedded-magnitude map does not depend on the candidate
at all. -/
theorem select_iteration_strength_is_global_alpha :
    101 ∈ alpha_grid ∧
      (∀ (abs_spec : Fin 512 → Fin 512 → ℝ) (cvz : Fin 256 → Fin 256 → ℝ) (a1 a2 : ℕ),
        select_iteration_embedded_mag abs_spec cvz a1 =
          select_iteration_embedded_mag abs_spec cvz a2) ∧
      select_iteration_embedded_mag (fun _ _ => 0) (fun _ _ => 1) 101 130 130 = 1 ∧
      (1 : ℝ) ≠ 101 := by
  refine ⟨by decide, fun _ _ _ _ => rfl, ?_, by norm_num⟩
  have hb : inBlock (130 : Fin 512) (130 : Fin 512) := by decide
  simp only [select_iteration_embedded_mag, modified_abs_spectrum]
  rw [dif_pos hb]
  norm_num [ALPHA]

/-- C2, counterexample: the false-detection scores are computed against the
vector passed at the call site, which in the source is the flattened
reference watermark CVZ and not the extracted watermark.  With reference
vector (1, 0), extracted vector (0, 1) and decoy (1, 0), the program
returns the score against the reference (namely 1), which differs from the
score of the decoy against the extracted watermark (namely 0). -/
theorem false_detection_reference_not_extracted :
    detect_false_proximity [[(1 : ℝ), 0]] [(1 : ℝ), 0] ≠
      [calculate_proximity [(0 : ℝ), 1] [(1 : ℝ), 0]] := by
  have h1 : detect_false_proximity [[(1 : ℝ), 0]] [(1 : ℝ), 0] = [1] := by
    simp [detect_false_proximity, calculate_proximity, vdot, vsum_sq]
  have h2 : calculate_proximity [(0 : ℝ), 1] [(1 : ℝ), 0] = 0 := by
    simp [calculate_proximity, vdot, vsum_sq]
  rw [h1, h2]
  simp

/-- C2, amended: the analysis generates exactly 100 decoy vectors of
flattened length 65536 and returns one correlation score per decoy, but
each decoy is correlated against the flattened reference watermark CVZ
passed at the call site (the call runs before any embedding), not against
an extracted watermark. -/
theorem false_detection_against_reference (normal : ℕ → ℕ → List ℝ) (cvz : List ℝ)
    (hlen : ∀ i n, (normal i n).length = n) :
    (generate_false_detection_vectors normal 100).length = 100 ∧
      (∀ d ∈ generate_false_detection_vectors normal 100, d.length = 65536) ∧
      false_detection_proximity_array normal cvz =
        (generate_false_detection_vectors normal 100).map
          (fun decoy => calculate_proximity cvz decoy) := by
  refine ⟨by simp [generate_false_detection_vectors], ?_, rfl⟩
  intro d hd
  simp only [generate_false_detection_vectors, List.mem_map] at hd
  obtain ⟨i, _, rfl⟩ := hd
  exact hlen i 65536

/-- Witness for the amended C2 statement with the all-zero draw stream. -/
theorem false_detection_against_reference_witness :
    (∀ i n, (zeros_normal i n).length = n) ∧
      ((generate_false_detection_vectors zeros_normal 100).length = 100 ∧
        (∀ d ∈ generate_false_detection_vectors zeros_normal 100, d.length = 65536) ∧
        false_detection_proximity_array zeros_normal [] =
          (generate_false_detection_vectors zeros_normal 100).map
            (fun decoy => calculate_proximity [] decoy)) :=
  ⟨fun _ n => by simp [zeros_normal],
    false_detection_against_reference zeros_normal [] (fun _ n => by simp [zeros_normal])⟩

/-- C6: the embedding modifies only the central 256 by 256 block of the
magnitude spectrum, adding alpha times the watermark elementwise there;
the phase array used for recomposition is exactly the phase of the
original spectrum; and the retained original magnitude reference (the
second abs copy) still equals the magnitude of the original spectrum after
the embedding. -/
theorem embed_block_frame_phase (spectre_array : Fin 512 → Fin 512 → ℂ)
    (cvz : Fin 256 → Fin 256 → ℝ) (alpha : ℝ) :
    (∀ i j, ¬ inBlock i j →
        (embed_script spectre_array cvz alpha).1 i j = Complex.abs (spectre_array i j)) ∧
      (∀ r c : Fin 256,
        (embed_script spectre_array cvz alpha).1
            ⟨128 + r.val, by have := r.isLt; omega⟩ ⟨128 + c.val, by have := c.isLt; omega⟩ =
          Complex.abs (spectre_array
              ⟨128 + r.val, by have := r.isLt; omega⟩ ⟨128 + c.val, by have := c.isLt; omega⟩) +
            alpha * cvz r c) ∧
      (embed_script spectre_array cvz alpha).2.2 = get_phase spectre_array ∧
      (embed_script spectre_array cvz alpha).2.1 = abs_spectrum_of spectre_array := by
  refine ⟨?_, ?_, rfl, rfl⟩
  · intro i j hij
    simp only [embed_script, modified_abs_spectrum, abs_spectrum_of]
    rw [dif_neg hij]
  · intro r c
    have hr := r.isLt
    have hc := c.isLt
    have hblk : inBlock (⟨128 + r.val, by omega⟩ : Fin 512) ⟨128 + c.val, by omega⟩ := by
      refine ⟨?_, ?_, ?_, ?_⟩ <;> simp <;> omega
    simp only [embed_script, modified_abs_spectrum, abs_spectrum_of]
    rw [dif_pos hblk]
    have h1 : 128 + r.val - 128 = r.val := by omega
    have h2 : 128 + c.val - 128 = c.val := by omega
    simp only [h1, h2, Fin.eta]

/-- Witness for C6 at the corner index outside the block and at the block
origin, with a constant spectrum, unit watermark and alpha 2. -/
theorem embed_block_frame_phase_witness :
    ¬ inBlock (0 : Fin 512) (0 : Fin 512) ∧
      (embed_script (fun _ _ => 1) (fun _ _ => 1) 2).1 0 0 = Complex.abs (1 : ℂ) :=
  ⟨by decide, (embed_block_frame_phase (fun _ _ => 1) (fun _ _ => 1) 2).1 0 0 (by decide)⟩

/-- C5, counterexample: one evaluation of the cut attack overwrites the
stored watermarked array in place.  On a 2 by 2 example with stored value
5 everywhere and original value 1 everywhere, after the evaluation at
proportion 0.55 the stored array is no longer the array it was before the
evaluation. -/
theorem cut_mutates_stored_image :
    apply_cut 2 (fun _ _ => (5 : ℚ)) (fun _ _ => 1) (11 / 20) ≠ (fun _ _ => (5 : ℚ)) := by
  intro hcontra
  have h0 := congrFun (congrFun hcontra 0) 0
  have hfloor : ⌊(11 / 20 : ℚ) * (2 : ℕ)⌋ = 1 := by
    rw [Int.floor_eq_iff]
    norm_num
  have hb : cut_bound 2 (11 / 20) = 1 := by
    rw [cut_bound, hfloor]
    rfl
  simp only [apply_cut, hb] at h0
  norm_num at h0

/-- C5, amended: each cut evaluation overwrites the top-left block of the
stored watermarked image in place (the stored image is not unchanged), but
because the replacement is always taken from the fixed original image and
the sweep proportions are nondecreasing, evaluating a proportion q after a
smaller proportion p produces exactly the candidate that a fresh
derivation from the pristine watermarked image would produce, so the
reported proximity per parameter value is still independent of the
previously evaluated parameter values. -/
theorem cut_monotone_sweep_consistent (n : ℕ) (reverse_arr image_arr : Fin n → Fin n → ℚ)
    (p q : ℚ) (hpq : p ≤ q) :
    apply_cut n (apply_cut n reverse_arr image_arr p) image_arr q =
      apply_cut n reverse_arr image_arr q := by
  funext i j
  have hmono := cut_bound_mono n hpq
  simp only [apply_cut]
  by_cases hq : i.val < cut_bound n q ∧ j.val < cut_bound n q
  · rw [if_pos hq, if_pos hq]
  · rw [if_neg hq, if_neg hq]
    have hp : ¬ (i.val < cut_bound n p ∧ j.val < cut_bound n p) := by
      intro hp
      exact hq ⟨lt_of_lt_of_le hp.1 hmono, lt_of_lt_of_le hp.2 hmono⟩
    rw [if_neg hp]

/-- Witness for the amended C5 statement on a 2 by 2 image with the first
two sweep proportions. -/
theorem cut_monotone_sweep_consistent_witness :
    ((11 : ℚ) / 20 ≤ 7 / 10) ∧
      apply_cut 2 (apply_cut 2 (fun _ _ => (5 : ℚ)) (fun _ _ => 1) (11 / 20))
          (fun _ _ => 1) (7 / 10) =
        apply_cut 2 (fun _ _ => (5 : ℚ)) (fun _ _ => 1) (7 / 10) :=
  ⟨by norm_num, cut_monotone_sweep_consistent 2 _ _ _ _ (by norm_num)⟩

/-- C10: for a replacement proportion of at least 1 the slice bound clamps
to the full image dimension, the whole watermarked image is replaced by
the original image, and the (total) operation completes without any
out-of-bounds failure. -/
theorem cut_full_replacement (n : ℕ) (reverse_arr image_arr : Fin n → Fin n → ℚ)
    (p : ℚ) (hp : 1 ≤ p) : apply_cut n reverse_arr image_arr p = image_arr := by
  have h1 : (n : ℤ) ≤ ⌊p * (n : ℚ)⌋ := by
    rw [Int.le_floor]
    push_cast
    exact le_mul_of_one_le_left (by positivity) hp
  have h2 : n ≤ Int.toNat ⌊p * (n : ℚ)⌋ := by omega
  have hb : cut_bound n p = n := by
    rw [cut_bound]
    exact min_eq_left h2
  funext i j
  simp only [apply_cut, hb]
  rw [if_pos ⟨i.isLt, j.isLt⟩]

/-- Witness for C10 at proportion 1.45 on a 2 by 2 image. -/
theorem cut_full_replacement_witness :
    ((1 : ℚ) ≤ 29 / 20) ∧
      apply_cut 2 (fun _ _ => (5 : ℚ)) (fun _ _ => 7) (29 / 20) = (fun _ _ => (7 : ℚ)) :=
  ⟨by norm_num, cut_full_replacement 2 _ _ _ (by norm_num)⟩

end

end Lab04
